import Mathlib

set_option maxHeartbeats 1000000

namespace ControlEquipos

/-!
Shallow embedding of the background task worker subsystem of
control_equipos_api: the module-level registry and queue of
`app/worker.py` (register_task, execute_task, enqueue_task,
worker_process, start_worker, shutdown_worker) and the startup wiring in
`app/main.py` (lifespan) together with the standalone entry point of
`app/worker.py` (__main__).
-/

/-- Opaque task-argument values; Python passes arbitrary objects, and only
their identity matters to the queueing layer, so they are embedded as
strings. -/
abbrev Value := String

/-- A task handler as stored in `registered_tasks`: `isAsync` records
whether the Python callable is a coroutine function (the
`asyncio.iscoroutinefunction` branch in `execute_task`), and `fn` gives
the handler behaviour, where `Except.error e` models the handler raising
an exception carrying `e`. -/
structure Handler where
  isAsync : Bool
  fn : List Value → List (String × Value) → Except String Value

/-- A queued task invocation, mirroring the dict
with keys task_name, args and kwargs built by `enqueue_task`. -/
structure TaskInvocation where
  task_name : String
  args : List Value
  kwargs : List (String × Value)

/-- The module-level mutable state of `app/worker.py` used by the pure
operations: the registry dict `registered_tasks` and the buffered items
of the in-memory `task_queue`. -/
structure WState where
  registered_tasks : String → Option Handler
  task_queue : List TaskInvocation

/-- Embedding of `register_task(task_name)` applied to a function `func`:
the inner decorator stores `func` under `task_name` in
`registered_tasks`, logs, and returns `func` itself unchanged. The queue
is not touched. -/
def registerTask (task_name : String) (func : Handler) (st : WState) :
    Handler × WState :=
  (func,
   { st with registered_tasks :=
      fun m => if m = task_name then some func else st.registered_tasks m })

/-- Exceptions surfaced by the worker module: `unknownTask` models the
ValueError with message Tarea desconocida raised for an unregistered
name; `fromHandler e` is the handler raising its own exception `e`,
which the bare re-raise in `execute_task` propagates unchanged. -/
inductive Exc
  | unknownTask (task_name : String)
  | fromHandler (e : String)
deriving DecidableEq

/-- Log entries recorded by `execute_task`: the error log for a missing
task and the exception log for a failing handler. -/
inductive LogEntry
  | taskNotFound (task_name : String)
  | taskFailed (task_name : String) (e : String)
deriving DecidableEq

/-- Embedding of `execute_task`: look up the handler in
`registered_tasks`; when missing, log and raise the unknown-task
ValueError. Otherwise invoke the handler — awaited directly when it is a
coroutine function, or run on a ThreadPoolExecutor thread otherwise; both
paths hand back the handler result or exception unchanged — and on a
handler exception log it and re-raise the same exception. Returns the
outcome together with the log entries written. -/
def executeTask (st : WState) (task_name : String) (args : List Value)
    (kwargs : List (String × Value)) : Except Exc Value × List LogEntry :=
  match st.registered_tasks task_name with
  | none =>
      (Except.error (Exc.unknownTask task_name), [LogEntry.taskNotFound task_name])
  | some h =>
      match h.fn args kwargs with
      | Except.ok v => (Except.ok v, [])
      | Except.error e =>
          (Except.error (Exc.fromHandler e), [LogEntry.taskFailed task_name e])

/-- Embedding of `enqueue_task`: reject an unregistered name (raising the
unknown-task ValueError) before touching the queue; otherwise append one
invocation dict at the tail of `task_queue` (the put call). Returns the
new module state plus the raised exception, if any. -/
def enqueueTask (st : WState) (task_name : String) (args : List Value)
    (kwargs : List (String × Value)) : WState × Option Exc :=
  if (st.registered_tasks task_name).isNone then
    (st, some (Exc.unknownTask task_name))
  else
    ({ st with task_queue := st.task_queue ++ [⟨task_name, args, kwargs⟩] },
     none)

/-!
Cooperative small-step semantics of the worker pool.

The event loop multiplexes the worker coroutines (`worker_process`), the
producers (`enqueue_task` callers) and the shutdown coroutine
(`shutdown_worker`); code between two awaits runs atomically.  Each
`Action` below is one such atomic segment, and nondeterministic
scheduling is a choice of action sequence.  The outcome of
`execute_task` for a queued invocation is abstracted to one bit `ok`
(returns normally / raises), because that is the only distinction
`worker_process` acts on.
-/

/-- A task invocation as seen by the worker loop. `id` is a ghost
identifier assigned at enqueue time so that distinct put calls yield
distinct invocations; `ok` abstracts the outcome of `execute_task` for
this invocation (`true`: returns normally, `false`: raises an
exception). -/
structure TInv where
  id : Nat
  name : String
  ok : Bool
deriving DecidableEq

/-- Program counter of one `worker_process` coroutine: suspended in the
queue get call, suspended inside the await of `execute_task` for a
dequeued invocation, or terminated after breaking out of its loop on
CancelledError.  A terminated worker records the invocation it was
executing when the cancellation hit, if any. -/
inductive WStatus
  | atGet
  | atExec (inv : TInv)
  | terminated (cancelledDuring : Option TInv)
deriving DecidableEq

/-- One worker task (an asyncio.Task running `worker_process`):
its program counter and whether cancel() has been requested on it. -/
structure Worker where
  st : WStatus
  cancelReq : Bool
deriving DecidableEq

/-- Program counter of the `shutdown_worker` coroutine: not yet called;
suspended in `task_queue.join()`; suspended in the gather awaiting worker
termination (cancellation already signalled); or returned. -/
inductive SdStatus
  | idle
  | joining
  | gathering
  | done
deriving DecidableEq

/-- Global state of the subsystem: the queue buffer (the deque inside
`asyncio.Queue`), the unfinished-task counter maintained by put and
task_done (what `join()` waits on), the worker pool, the shutdown
coroutine state, plus ghost history fields: `joined` records whether the
shutdown call found a non-empty buffer and awaited `join()`; `enqHist`,
`deqHist` and `execHist` record, in order, the invocations enqueued,
dequeued, and whose `execute_task` call ran to completion (normally or by
raising); `doneCalls` counts the `task_done()` calls made. -/
structure Sys where
  buffer : List TInv
  unfinished : Nat
  workers : List Worker
  sd : SdStatus
  joined : Bool
  nextId : Nat
  enqHist : List TInv
  deqHist : List TInv
  execHist : List TInv
  doneCalls : Nat
deriving DecidableEq

/-- Scheduler actions, one per atomic (await-to-await) code segment:
producer `enqueue_task` put; a worker returning from the queue get; a
worker finishing `execute_task` (and, on success, calling `task_done()`
and looping); delivery of a requested cancellation at a worker suspension
point; the synchronous prefix of `shutdown_worker` (the empty check, and
either entering `join()` or cancelling everyone); `join()` returning; and
the gather returning once all workers terminated. -/
inductive Action
  | enqueue (name : String) (ok : Bool)
  | dequeue (i : Nat)
  | finish (i : Nat)
  | cancelDeliver (i : Nat)
  | sdCall
  | sdJoinDone
  | sdGatherDone
deriving DecidableEq

/-- Sets cancelReq on a worker: the effect of task.cancel() in
`shutdown_worker`. -/
def setCancel (w : Worker) : Worker := { w with cancelReq := true }

/-- True when the worker coroutine has terminated (its asyncio.Task is
done, as the gather in `shutdown_worker` awaits). -/
def Worker.isTerminated (w : Worker) : Bool :=
  match w.st with
  | WStatus.terminated _ => true
  | _ => false

/-- One atomic scheduler step of the subsystem; `none` when the action is
not enabled in the given state.  Each branch mirrors a code segment of
`app/worker.py`:

* `enqueue`: `enqueue_task` put (producers only run while the host is up,
  before `shutdown_worker` is called) — appends to the buffer and
  increments the unfinished counter.
* `dequeue`: the get call in `worker_process` returns the head item.
* `finish`: the await of `execute_task` completes.  On normal return the
  worker calls `task_done()` (decrementing the unfinished counter) and
  loops; on an exception the except-Exception arm logs and loops
  WITHOUT calling `task_done()` — exactly as in the source, where the
  `task_queue.task_done()` line is skipped when `execute_task` raises.
* `cancelDeliver`: a requested cancellation is raised at the worker's
  current suspension point; CancelledError is not caught by the
  except-Exception arm of `execute_task`, so in both suspension states
  the worker loop's except-CancelledError arm breaks out of the loop.
* `sdCall`: the synchronous prefix of `shutdown_worker`: when the buffer
  is non-empty it logs and suspends in `task_queue.join()`; when the
  buffer is empty it skips the join, immediately calls cancel() on every
  worker and suspends in the gather.
* `sdJoinDone`: `join()` returns once the unfinished counter is zero;
  then cancel() is called on every worker and the gather is awaited.
* `sdGatherDone`: the gather returns once every worker has terminated. -/
def step (a : Action) (s : Sys) : Option Sys :=
  match a with
  | Action.enqueue name ok =>
      match s.sd with
      | SdStatus.idle =>
          let inv : TInv := ⟨s.nextId, name, ok⟩
          some { s with buffer := s.buffer ++ [inv],
                        unfinished := s.unfinished + 1,
                        nextId := s.nextId + 1,
                        enqHist := s.enqHist ++ [inv] }
      | _ => none
  | Action.dequeue i =>
      match s.workers[i]? with
      | some w =>
          match w.st, w.cancelReq, s.buffer with
          | WStatus.atGet, false, inv :: rest =>
              some { s with buffer := rest,
                            workers := s.workers.set i { w with st := WStatus.atExec inv },
                            deqHist := s.deqHist ++ [inv] }
          | _, _, _ => none
      | none => none
  | Action.finish i =>
      match s.workers[i]? with
      | some w =>
          match w.st, w.cancelReq with
          | WStatus.atExec inv, false =>
              if inv.ok then
                some { s with workers := s.workers.set i { w with st := WStatus.atGet },
                              execHist := s.execHist ++ [inv],
                              unfinished := s.unfinished - 1,
                              doneCalls := s.doneCalls + 1 }
              else
                some { s with workers := s.workers.set i { w with st := WStatus.atGet },
                              execHist := s.execHist ++ [inv] }
          | _, _ => none
      | none => none
  | Action.cancelDeliver i =>
      match s.workers[i]? with
      | some w =>
          if w.cancelReq then
            match w.st with
            | WStatus.atGet =>
                some { s with workers := s.workers.set i { w with st := WStatus.terminated none } }
            | WStatus.atExec inv =>
                some { s with workers := s.workers.set i { w with st := WStatus.terminated (some inv) } }
            | WStatus.terminated _ => none
          else none
      | none => none
  | Action.sdCall =>
      match s.sd with
      | SdStatus.idle =>
          match s.buffer with
          | [] => some { s with sd := SdStatus.gathering,
                                workers := s.workers.map setCancel }
          | _ :: _ => some { s with sd := SdStatus.joining, joined := true }
      | _ => none
  | Action.sdJoinDone =>
      match s.sd, s.unfinished with
      | SdStatus.joining, 0 =>
          some { s with sd := SdStatus.gathering,
                        workers := s.workers.map setCancel }
      | _, _ => none
  | Action.sdGatherDone =>
      match s.sd with
      | SdStatus.gathering =>
          if s.workers.all Worker.isTerminated then
            some { s with sd := SdStatus.done }
          else none
      | _ => none

/-- Runs a sequence of scheduler actions from a state; `none` when some
action along the way is not enabled. -/
def run (acts : List Action) (s : Sys) : Option Sys :=
  match acts with
  | [] => some s
  | a :: rest => (step a s).bind (run rest)

/-- The state right after `start_worker(n)` returned during startup: `n`
freshly created worker tasks, each entering its loop at the queue get,
nothing enqueued yet, shutdown not called. -/
def initSys (n : Nat) : Sys :=
  { buffer := [], unfinished := 0,
    workers := List.replicate n ⟨WStatus.atGet, false⟩,
    sd := SdStatus.idle, joined := false, nextId := 0,
    enqHist := [], deqHist := [], execHist := [], doneCalls := 0 }

/-- Extracts the invocation a worker is currently executing, if any. -/
def wInflight (w : Worker) : Option TInv :=
  match w.st with
  | WStatus.atExec inv => some inv
  | _ => none

/-- Extracts the invocation whose execution a cancellation interrupted,
if this worker was cancelled mid-execution. -/
def wCancelled (w : Worker) : Option TInv :=
  match w.st with
  | WStatus.terminated (some inv) => some inv
  | _ => none

/-- Invocations currently being executed by some worker. -/
def inflight (s : Sys) : List TInv := s.workers.filterMap wInflight

/-- Invocations whose execution was interrupted by a delivered
cancellation. -/
def interrupted (s : Sys) : List TInv := s.workers.filterMap wCancelled

/-- Number of invocations in a history whose execution raised. -/
def failCount (l : List TInv) : Nat := (l.filter (fun i => !i.ok)).length

/-!
Startup configuration (app/main.py lifespan and the standalone entry
point at the bottom of app/worker.py).
-/

/-- Environment for configuration lookups, modelling os.environ as seen
through os.environ.get and os.getenv. -/
abbrev Env := String → Option String

/-- ASCII lower-casing of a string, character by character: the
behaviour of str.lower() on the configuration values involved here. -/
def strLower (s : String) : String := String.mk (s.data.map Char.toLower)

/-- Parses a nonnegative decimal literal, character by character: the
behaviour of int() on the configuration values involved here; none
models int() raising ValueError. -/
def digitsToNat (l : List Char) (acc : Nat) : Option Nat :=
  match l with
  | [] => some acc
  | c :: rest =>
      if c.isDigit then digitsToNat rest (acc * 10 + (c.toNat - 48)) else none

/-- String-level entry point of the decimal parser. -/
def strToNat (s : String) : Option Nat :=
  match s.data with
  | [] => none
  | l => digitsToNat l 0

/-- Embedding of the ENABLE_WORKERS check in lifespan in app/main.py:
the value of ENABLE_WORKERS, defaulting to "true", lower-cased and
compared with "true". -/
def readEnableWorkers (env : Env) : Bool :=
  strLower ((env "ENABLE_WORKERS").getD "true") == "true"

/-- Embedding of start_worker: creates the requested number of worker
tasks, each starting its loop suspended at the queue get, and returns
their handles. -/
def startWorkerHandles (num_workers : Nat) : List Worker :=
  List.replicate num_workers ⟨WStatus.atGet, false⟩

/-- Embedding of the worker-startup portion of lifespan in app/main.py:
when the ENABLE_WORKERS check passes, it calls start_worker with the
literal count 3 written in the call; otherwise the workers list stays
empty.  No other environment value enters this decision. -/
def lifespanWorkers (env : Env) : List Worker :=
  if readEnableWorkers env then startWorkerHandles 3 else []

/-- Embedding of the worker count of the standalone entry point of
app/worker.py: the int() of os.getenv applied to NUM_WORKERS with
default "3"; the none result models int() raising on an unparsable
value. -/
def standaloneNumWorkers (env : Env) : Option Nat :=
  strToNat ((env "NUM_WORKERS").getD "3")

/-- A concrete environment setting NUM_WORKERS to 5 and nothing else. -/
def envNum5 : Env := fun k => if k = "NUM_WORKERS" then some "5" else none

/-- A concrete environment setting NUM_WORKERS to 7 and nothing else. -/
def envNum7 : Env := fun k => if k = "NUM_WORKERS" then some "7" else none

/-!
System invariant tying the queue counters to the histories, used to
settle the queue-level and shutdown-level claims.
-/

/-- Invariant of the worker subsystem, established at `initSys` and
preserved by every scheduler step.  `cnt` relates the unfinished-task
counter to the buffered, in-flight, failed-but-never-marked-done and
interrupted invocations; `part` places every enqueued invocation; `fifo`
says the queue is consumed in FIFO order from the head; `ids_lt` and
`ids_nd` give freshness of the ghost identifiers; `cancel_late` says no
cancellation is requested or delivered before `shutdown_worker` signals
it; `joined_sd` and `joined_safe` describe the shutdown path that did
await `join()`; `single` orders the histories when the pool has exactly
one worker. -/
structure GInv (s : Sys) : Prop where
  cnt : s.unfinished =
    s.buffer.length + (inflight s).length + failCount s.execHist +
      (interrupted s).length
  part : ∀ inv ∈ s.enqHist,
    inv ∈ s.buffer ∨ inv ∈ inflight s ∨ inv ∈ s.execHist ∨ inv ∈ interrupted s
  fifo : s.enqHist = s.deqHist ++ s.buffer
  ids_lt : ∀ inv ∈ s.enqHist, inv.id < s.nextId
  ids_nd : (s.enqHist.map TInv.id).Nodup
  cancel_late : s.sd = SdStatus.idle ∨ s.sd = SdStatus.joining →
    (∀ w ∈ s.workers, w.cancelReq = false) ∧ interrupted s = []
  joined_sd : s.joined = true → s.sd ≠ SdStatus.idle
  joined_safe : s.joined = true →
    s.sd = SdStatus.gathering ∨ s.sd = SdStatus.done →
    s.buffer = [] ∧ inflight s = [] ∧ interrupted s = []
  single : s.workers.length = 1 →
    s.deqHist = s.execHist ++ interrupted s ++ inflight s

/-!
Concrete scheduler traces used to witness and refute the claims.
-/

/-- Trace refuting the unconditional drain guarantee: one invocation is
enqueued and dequeued; `shutdown_worker` is then called while the buffer
is empty, skips the join, cancels the worker mid-execution and the
gather returns. -/
def c1CounterTrace : List Action :=
  [Action.enqueue "generate_report" true, Action.dequeue 0, Action.sdCall,
   Action.cancelDeliver 0, Action.sdGatherDone]

/-- Final state of `c1CounterTrace` from a one-worker pool. -/
def c1CounterState : Sys := (run c1CounterTrace (initSys 1)).getD (initSys 1)

/-- Trace exercising the drain path: `shutdown_worker` is called while
the buffer is non-empty, so it awaits the join before cancelling. -/
def c1WitnessTrace : List Action :=
  [Action.enqueue "generate_report" true, Action.sdCall, Action.dequeue 0,
   Action.finish 0, Action.sdJoinDone, Action.cancelDeliver 0,
   Action.sdGatherDone]

/-- Final state of `c1WitnessTrace` from a one-worker pool. -/
def c1WitnessState : Sys := (run c1WitnessTrace (initSys 1)).getD (initSys 1)

/-- Trace refuting the claim that cancellation is only ever delivered
while a worker waits for the next item: shutdown is called with an empty
buffer while the worker is executing, and the cancellation interrupts
that execution. -/
def c2CounterTrace : List Action :=
  [Action.enqueue "send_notification" true, Action.dequeue 0, Action.sdCall,
   Action.cancelDeliver 0]

/-- Final state of `c2CounterTrace` from a one-worker pool. -/
def c2CounterState : Sys := (run c2CounterTrace (initSys 1)).getD (initSys 1)

/-- Trace with two workers where shutdown awaits the join; both
cancellations are delivered at the queue get. -/
def c2WitnessTrace : List Action :=
  [Action.enqueue "check_a" true, Action.enqueue "check_b" true,
   Action.sdCall, Action.dequeue 0, Action.dequeue 1, Action.finish 0,
   Action.finish 1, Action.sdJoinDone, Action.cancelDeliver 0,
   Action.cancelDeliver 1, Action.sdGatherDone]

/-- Final state of `c2WitnessTrace` from a two-worker pool. -/
def c2WitnessState : Sys := (run c2WitnessTrace (initSys 2)).getD (initSys 2)

/-- Trace in which the single enqueued invocation raises: the worker
dequeues it and its `execute_task` call raises. -/
def c3FailTrace : List Action :=
  [Action.enqueue "boom" false, Action.dequeue 0, Action.finish 0]

/-- Final state of `c3FailTrace` from a one-worker pool. -/
def c3FailState : Sys := (run c3FailTrace (initSys 1)).getD (initSys 1)

/-- Trace in which a raising invocation is followed by a succeeding one
and `shutdown_worker` enters the join: the failed invocation was never
marked done, so the unfinished counter stays positive. -/
def c3JoinTrace : List Action :=
  [Action.enqueue "boom" false, Action.enqueue "fine" true,
   Action.dequeue 0, Action.finish 0, Action.sdCall, Action.dequeue 0,
   Action.finish 0]

/-- Final state of `c3JoinTrace` from a one-worker pool. -/
def c3JoinState : Sys := (run c3JoinTrace (initSys 1)).getD (initSys 1)

/-- A raising invocation queued ahead of a succeeding one. -/
def invBoom : TInv := ⟨0, "boom", false⟩

/-- A succeeding invocation queued behind a raising one. -/
def invFine : TInv := ⟨1, "fine", true⟩

/-- Concrete start state for the isolation witness: a one-worker pool
whose buffer holds a raising invocation ahead of a succeeding one. -/
def c4StartState : Sys :=
  { initSys 1 with buffer := [invBoom, invFine], unfinished := 2,
                   enqHist := [invBoom, invFine], nextId := 2 }

/-- Trace with two workers each dequeuing one of two enqueued
invocations. -/
def c5WitnessTrace : List Action :=
  [Action.enqueue "first" true, Action.enqueue "second" true,
   Action.dequeue 0, Action.dequeue 1, Action.finish 1, Action.finish 0]

/-- Final state of `c5WitnessTrace` from a two-worker pool. -/
def c5WitnessState : Sys := (run c5WitnessTrace (initSys 2)).getD (initSys 2)

/-- Trace with a single worker processing three enqueued invocations,
with later enqueues racing the worker. -/
def c8WitnessTrace : List Action :=
  [Action.enqueue "one" true, Action.enqueue "two" false,
   Action.dequeue 0, Action.finish 0, Action.enqueue "three" true,
   Action.dequeue 0, Action.finish 0, Action.dequeue 0, Action.finish 0]

/-- Final state of `c8WitnessTrace` from a one-worker pool. -/
def c8WitnessState : Sys := (run c8WitnessTrace (initSys 1)).getD (initSys 1)

/-- A concrete asynchronous handler that returns normally. -/
def hDemo : Handler := ⟨true, fun _ _ => Except.ok "ok"⟩

/-- A concrete synchronous handler that raises. -/
def hBoom : Handler := ⟨false, fun _ _ => Except.error "boom"⟩

/-- The module state with an empty registry and an empty queue. -/
def stEmpty : WState := ⟨fun _ => none, []⟩

/-- A module state registering only the succeeding demo handler. -/
def stDemo : WState :=
  ⟨fun k => if k = "send_notification" then some hDemo else none, []⟩

/-- A module state registering only the raising demo handler. -/
def stBoom : WState := ⟨fun k => if k = "boom" then some hBoom else none, []⟩

/-!
Helper lemmas about list indexing and the derived worker views.
-/

/-- Successful indexing decomposes a list around the found element, and
determines the effect of set at that index. -/
theorem getElem?_decomp {α : Type} {l : List α} {i : Nat} {w : α}
    (h : l[i]? = some w) :
    ∃ l₁ l₂, l = l₁ ++ w :: l₂ ∧ l₁.length = i ∧
      ∀ w', l.set i w' = l₁ ++ w' :: l₂ := by
  induction l generalizing i with
  | nil => simp at h
  | cons a t ih =>
    cases i with
    | zero =>
      simp at h
      subst h
      exact ⟨[], t, rfl, rfl, fun w' => rfl⟩
    | succ j =>
      simp at h
      obtain ⟨l₁, l₂, he, hl, hs⟩ := ih h
      refine ⟨a :: l₁, l₂, by simp [he], by simp [hl], fun w' => ?_⟩
      simp [hs w']

/-- filterMap over a replicated element that maps to none is empty. -/
theorem filterMap_replicate_none {α β : Type} {f : α → Option β} {a : α}
    (h : f a = none) (n : Nat) : (List.replicate n a).filterMap f = [] := by
  induction n with
  | zero => rfl
  | succ m ih => simp [List.replicate, List.filterMap_cons, h, ih]

/-- Requesting cancellation does not change what a worker is executing. -/
theorem wInflight_setCancel (w : Worker) : wInflight (setCancel w) = wInflight w := rfl

/-- Requesting cancellation does not change a recorded interruption. -/
theorem wCancelled_setCancel (w : Worker) : wCancelled (setCancel w) = wCancelled w := rfl

/-- The in-flight view is unchanged when cancellation is requested on
every worker. -/
theorem filterMap_wInflight_map_setCancel (l : List Worker) :
    (l.map setCancel).filterMap wInflight = l.filterMap wInflight := by
  induction l with
  | nil => rfl
  | cons w t ih => simp [List.filterMap_cons, wInflight_setCancel, ih]

/-- The interrupted view is unchanged when cancellation is requested on
every worker. -/
theorem filterMap_wCancelled_map_setCancel (l : List Worker) :
    (l.map setCancel).filterMap wCancelled = l.filterMap wCancelled := by
  induction l with
  | nil => rfl
  | cons w t ih => simp [List.filterMap_cons, wCancelled_setCancel, ih]

/-!
Inversion lemmas: what each enabled scheduler step tells us about the
states before and after.
-/

/-- Inversion for the producer step. -/
theorem enqueue_inv {s s' : Sys} {name : String} {ok : Bool}
    (h : step (Action.enqueue name ok) s = some s') :
    s.sd = SdStatus.idle ∧
      s' = { s with buffer := s.buffer ++ [⟨s.nextId, name, ok⟩],
                    unfinished := s.unfinished + 1,
                    nextId := s.nextId + 1,
                    enqHist := s.enqHist ++ [⟨s.nextId, name, ok⟩] } := by
  simp only [step] at h
  split at h
  next hsd => exact ⟨hsd, (Option.some_inj.mp h).symm⟩
  next => simp at h

/-- Inversion for a worker returning from the queue get. -/
theorem dequeue_inv {s s' : Sys} {i : Nat}
    (h : step (Action.dequeue i) s = some s') :
    ∃ w inv rest, s.workers[i]? = some w ∧ w.st = WStatus.atGet ∧
      w.cancelReq = false ∧ s.buffer = inv :: rest ∧
      s' = { s with buffer := rest,
                    workers := s.workers.set i { w with st := WStatus.atExec inv },
                    deqHist := s.deqHist ++ [inv] } := by
  simp only [step] at h
  split at h
  next w hw =>
    split at h
    next inv rest hst hcr hb =>
      exact ⟨w, inv, rest, hw, hst, hcr, hb, (Option.some_inj.mp h).symm⟩
    next => simp at h
  next => simp at h

/-- Inversion for a worker finishing its `execute_task` call. -/
theorem finish_inv {s s' : Sys} {i : Nat}
    (h : step (Action.finish i) s = some s') :
    ∃ w inv, s.workers[i]? = some w ∧ w.st = WStatus.atExec inv ∧
      w.cancelReq = false ∧
      ((inv.ok = true ∧
        s' = { s with workers := s.workers.set i { w with st := WStatus.atGet },
                      execHist := s.execHist ++ [inv],
                      unfinished := s.unfinished - 1,
                      doneCalls := s.doneCalls + 1 }) ∨
       (inv.ok = false ∧
        s' = { s with workers := s.workers.set i { w with st := WStatus.atGet },
                      execHist := s.execHist ++ [inv] })) := by
  simp only [step] at h
  split at h
  next w hw =>
    split at h
    next inv hst hcr =>
      by_cases hok : inv.ok
      · rw [if_pos hok] at h
        exact ⟨w, inv, hw, hst, hcr, Or.inl ⟨hok, (Option.some_inj.mp h).symm⟩⟩
      · rw [if_neg hok] at h
        exact ⟨w, inv, hw, hst, hcr,
          Or.inr ⟨Bool.eq_false_iff.mpr hok, (Option.some_inj.mp h).symm⟩⟩
    next => simp at h
  next => simp at h

/-- Inversion for delivery of a requested cancellation. -/
theorem cancelDeliver_inv {s s' : Sys} {i : Nat}
    (h : step (Action.cancelDeliver i) s = some s') :
    ∃ w, s.workers[i]? = some w ∧ w.cancelReq = true ∧
      ((w.st = WStatus.atGet ∧
        s' = { s with workers := s.workers.set i { w with st := WStatus.terminated none } }) ∨
       (∃ inv, w.st = WStatus.atExec inv ∧
        s' = { s with workers := s.workers.set i { w with st := WStatus.terminated (some inv) } })) := by
  simp only [step] at h
  split at h
  next w hw =>
    split at h
    next hcr =>
      split at h
      next hst => exact ⟨w, hw, hcr, Or.inl ⟨hst, (Option.some_inj.mp h).symm⟩⟩
      next inv hst =>
        exact ⟨w, hw, hcr, Or.inr ⟨inv, hst, (Option.some_inj.mp h).symm⟩⟩
      next => simp at h
    next => simp at h
  next => simp at h

/-- Inversion for the synchronous prefix of `shutdown_worker`. -/
theorem sdCall_inv {s s' : Sys}
    (h : step Action.sdCall s = some s') :
    s.sd = SdStatus.idle ∧
      ((s.buffer = [] ∧
        s' = { s with sd := SdStatus.gathering,
                      workers := s.workers.map setCancel }) ∨
       (∃ inv rest, s.buffer = inv :: rest ∧
        s' = { s with sd := SdStatus.joining, joined := true })) := by
  simp only [step] at h
  split at h
  next hsd =>
    split at h
    next hb => exact ⟨hsd, Or.inl ⟨hb, (Option.some_inj.mp h).symm⟩⟩
    next inv rest hb =>
      exact ⟨hsd, Or.inr ⟨inv, rest, hb, (Option.some_inj.mp h).symm⟩⟩
  next => simp at h

/-- Inversion for `join()` returning. -/
theorem sdJoinDone_inv {s s' : Sys}
    (h : step Action.sdJoinDone s = some s') :
    s.sd = SdStatus.joining ∧ s.unfinished = 0 ∧
      s' = { s with sd := SdStatus.gathering,
                    workers := s.workers.map setCancel } := by
  simp only [step] at h
  split at h
  next hsd hun => exact ⟨hsd, hun, (Option.some_inj.mp h).symm⟩
  next => simp at h

/-- Inversion for the gather returning. -/
theorem sdGatherDone_inv {s s' : Sys}
    (h : step Action.sdGatherDone s = some s') :
    s.sd = SdStatus.gathering ∧ s.workers.all Worker.isTerminated = true ∧
      s' = { s with sd := SdStatus.done } := by
  simp only [step] at h
  split at h
  next hsd =>
    split at h
    next ht => exact ⟨hsd, ht, (Option.some_inj.mp h).symm⟩
    next => simp at h
  next => simp at h

/-!
Preservation of the invariant by each scheduler step.
-/

/-- The producer step preserves the invariant. -/
theorem ginv_enqueue {s s' : Sys} {name : String} {ok : Bool} (hg : GInv s)
    (h : step (Action.enqueue name ok) s = some s') : GInv s' := by
  obtain ⟨hsd, rfl⟩ := enqueue_inv h
  refine ⟨?_, ?_, ?_, ?_, ?_, ?_, ?_, ?_, ?_⟩
  · have hc := hg.cnt
    simp only [inflight, interrupted, failCount] at hc ⊢
    simp only [List.length_append, List.length_cons, List.length_nil]
    omega
  · intro inv' h'
    simp only [inflight, interrupted] at *
    rcases List.mem_append.mp h' with h' | h'
    · rcases hg.part inv' h' with hbm | him | hem | hcm
      · exact Or.inl (List.mem_append_left _ hbm)
      · exact Or.inr (Or.inl him)
      · exact Or.inr (Or.inr (Or.inl hem))
      · exact Or.inr (Or.inr (Or.inr hcm))
    · exact Or.inl (List.mem_append_right _ h')
  · show s.enqHist ++ _ = s.deqHist ++ (s.buffer ++ _)
    rw [hg.fifo, List.append_assoc]
  · intro inv' h'
    rcases List.mem_append.mp h' with h' | h'
    · exact Nat.lt_succ_of_lt (hg.ids_lt inv' h')
    · simp only [List.mem_singleton] at h'
      subst h'
      exact Nat.lt_succ_self _
  · simp only [List.map_append, List.map_cons, List.map_nil]
    rw [List.nodup_append]
    refine ⟨hg.ids_nd, List.nodup_singleton _, ?_⟩
    intro x hx hx'
    simp only [List.mem_singleton] at hx'
    subst hx'
    obtain ⟨inv', hmem, hid⟩ := List.mem_map.mp hx
    have hlt := hg.ids_lt inv' hmem
    omega
  · intro hsd'
    exact hg.cancel_late hsd'
  · intro hj
    exact absurd hsd (hg.joined_sd hj)
  · intro hj hor
    rw [hsd] at hor
    simp at hor
  · exact hg.single

/-- The dequeue step preserves the invariant. -/
theorem ginv_dequeue {s s' : Sys} {i : Nat} (hg : GInv s)
    (h : step (Action.dequeue i) s = some s') : GInv s' := by
  obtain ⟨w, inv, rest, hw, hst, hcr, hb, rfl⟩ := dequeue_inv h
  obtain ⟨l₁, l₂, hdecomp, hlen, hset⟩ := getElem?_decomp hw
  have hinf : inflight s = l₁.filterMap wInflight ++ l₂.filterMap wInflight := by
    rw [inflight, hdecomp]
    simp [List.filterMap_append, List.filterMap_cons, wInflight, hst]
  have hint : interrupted s = l₁.filterMap wCancelled ++ l₂.filterMap wCancelled := by
    rw [interrupted, hdecomp]
    simp [List.filterMap_append, List.filterMap_cons, wCancelled, hst]
  have hset' := hset { w with st := WStatus.atExec inv }
  have hinf' : (s.workers.set i { w with st := WStatus.atExec inv }).filterMap wInflight
      = l₁.filterMap wInflight ++ inv :: l₂.filterMap wInflight := by
    rw [hset']
    simp [List.filterMap_append, List.filterMap_cons, wInflight]
  have hint' : (s.workers.set i { w with st := WStatus.atExec inv }).filterMap wCancelled
      = l₁.filterMap wCancelled ++ l₂.filterMap wCancelled := by
    rw [hset']
    simp [List.filterMap_append, List.filterMap_cons, wCancelled]
  refine ⟨?_, ?_, ?_, ?_, ?_, ?_, ?_, ?_, ?_⟩
  · have hc := hg.cnt
    rw [hinf, hint, hb] at hc
    simp only [inflight, interrupted]
    rw [hinf', hint']
    simp only [List.length_append, List.length_cons] at hc ⊢
    omega
  · intro inv' h'
    simp only [inflight, interrupted]
    rw [hinf', hint']
    rcases hg.part inv' h' with hbm | him | hem | hcm
    · rw [hb] at hbm
      rcases List.mem_cons.mp hbm with rfl | hbm
      · exact Or.inr (Or.inl (List.mem_append_right _ (List.mem_cons_self _ _)))
      · exact Or.inl hbm
    · rw [hinf] at him
      rcases List.mem_append.mp him with him | him
      · exact Or.inr (Or.inl (List.mem_append_left _ him))
      · exact Or.inr (Or.inl (List.mem_append_right _ (List.mem_cons_of_mem _ him)))
    · exact Or.inr (Or.inr (Or.inl hem))
    · rw [hint] at hcm
      exact Or.inr (Or.inr (Or.inr hcm))
  · show s.enqHist = (s.deqHist ++ [inv]) ++ rest
    rw [hg.fifo, hb, List.append_assoc]
    rfl
  · exact hg.ids_lt
  · exact hg.ids_nd
  · intro hsd'
    obtain ⟨hall, hie⟩ := hg.cancel_late hsd'
    rw [hint] at hie
    constructor
    · intro w'' hw''
      rw [hset'] at hw''
      rcases List.mem_append.mp hw'' with hw'' | hw''
      · exact hall w'' (by rw [hdecomp]; exact List.mem_append_left _ hw'')
      · rcases List.mem_cons.mp hw'' with rfl | hw''
        · exact hcr
        · exact hall w'' (by rw [hdecomp]; exact List.mem_append_right _ (List.mem_cons_of_mem _ hw''))
    · simp only [interrupted]
      rw [hint']
      exact hie
  · exact hg.joined_sd
  · intro hj hor
    obtain ⟨hbe, _, _⟩ := hg.joined_safe hj hor
    rw [hb] at hbe
    exact absurd hbe (by simp)
  · intro h1
    rw [List.length_set, hdecomp] at h1
    simp only [List.length_append, List.length_cons] at h1
    have hl1 : l₁ = [] := List.length_eq_zero.mp (by omega)
    have hl2 : l₂ = [] := List.length_eq_zero.mp (by omega)
    subst hl1; subst hl2
    have hs := hg.single (by rw [hdecomp]; rfl)
    rw [hinf, hint] at hs
    simp only [List.filterMap_nil, List.append_nil, List.nil_append] at hs
    show s.deqHist ++ [inv] = _
    simp only [inflight, interrupted]
    rw [hinf', hint']
    simp only [List.filterMap_nil, List.append_nil, List.nil_append]
    rw [hs]

/-- Appending one executed invocation to the history adds one to the
failure count exactly when it raised. -/
theorem failCount_append_one (l : List TInv) (inv : TInv) :
    failCount (l ++ [inv]) = failCount l + (if inv.ok then 0 else 1) := by
  cases h : inv.ok <;>
    simp [failCount, List.filter_append, List.filter_cons, h]

/-- The finish step preserves the invariant. -/
theorem ginv_finish {s s' : Sys} {i : Nat} (hg : GInv s)
    (h : step (Action.finish i) s = some s') : GInv s' := by
  obtain ⟨w, inv, hw, hst, hcr, hcase⟩ := finish_inv h
  obtain ⟨l₁, l₂, hdecomp, hlen, hset⟩ := getElem?_decomp hw
  have hinf : inflight s = l₁.filterMap wInflight ++ inv :: l₂.filterMap wInflight := by
    rw [inflight, hdecomp]
    simp [List.filterMap_append, List.filterMap_cons, wInflight, hst]
  have hint : interrupted s = l₁.filterMap wCancelled ++ l₂.filterMap wCancelled := by
    rw [interrupted, hdecomp]
    simp [List.filterMap_append, List.filterMap_cons, wCancelled, hst]
  have hset' := hset { w with st := WStatus.atGet }
  have hinf' : (s.workers.set i { w with st := WStatus.atGet }).filterMap wInflight
      = l₁.filterMap wInflight ++ l₂.filterMap wInflight := by
    rw [hset']
    simp [List.filterMap_append, List.filterMap_cons, wInflight]
  have hint' : (s.workers.set i { w with st := WStatus.atGet }).filterMap wCancelled
      = l₁.filterMap wCancelled ++ l₂.filterMap wCancelled := by
    rw [hset']
    simp [List.filterMap_append, List.filterMap_cons, wCancelled]
  have hsingle : ∀ t : List TInv,
      (s.workers.set i { w with st := WStatus.atGet }).length = 1 →
      s.deqHist = t → t = s.execHist ++ [inv] := by
    intro t h1 ht
    rw [List.length_set, hdecomp] at h1
    simp only [List.length_append, List.length_cons] at h1
    have hl1 : l₁ = [] := List.length_eq_zero.mp (by omega)
    have hl2 : l₂ = [] := List.length_eq_zero.mp (by omega)
    have hs := hg.single (by rw [hdecomp, hl1, hl2]; rfl)
    rw [hinf, hint, hl1, hl2] at hs
    simp only [List.filterMap_nil, List.append_nil, List.nil_append] at hs
    rw [← ht, hs]
  rcases hcase with ⟨hok, rfl⟩ | ⟨hok, rfl⟩
  all_goals refine ⟨?_, ?_, ?_, ?_, ?_, ?_, ?_, ?_, ?_⟩
  · have hc := hg.cnt
    rw [hinf, hint] at hc
    have hfc : failCount (s.execHist ++ [inv]) = failCount s.execHist := by
      simp [failCount, List.filter_append, List.filter_cons, hok]
    simp only [inflight, interrupted]
    rw [hinf', hint', hfc]
    simp only [List.length_append, List.length_cons] at hc ⊢
    omega
  · intro inv' h'
    simp only [inflight, interrupted]
    rw [hinf', hint']
    rcases hg.part inv' h' with hbm | him | hem | hcm
    · exact Or.inl hbm
    · rw [hinf] at him
      rcases List.mem_append.mp him with him | him
      · exact Or.inr (Or.inl (List.mem_append_left _ him))
      · rcases List.mem_cons.mp him with rfl | him
        · exact Or.inr (Or.inr (Or.inl (List.mem_append_right _ (List.mem_cons_self _ _))))
        · exact Or.inr (Or.inl (List.mem_append_right _ him))
    · exact Or.inr (Or.inr (Or.inl (List.mem_append_left _ hem)))
    · rw [hint] at hcm
      exact Or.inr (Or.inr (Or.inr hcm))
  · exact hg.fifo
  · exact hg.ids_lt
  · exact hg.ids_nd
  · intro hsd'
    obtain ⟨hall, hie⟩ := hg.cancel_late hsd'
    rw [hint] at hie
    constructor
    · intro w'' hw''
      rw [hset'] at hw''
      rcases List.mem_append.mp hw'' with hw'' | hw''
      · exact hall w'' (by rw [hdecomp]; exact List.mem_append_left _ hw'')
      · rcases List.mem_cons.mp hw'' with rfl | hw''
        · exact hcr
        · exact hall w'' (by rw [hdecomp]; exact List.mem_append_right _ (List.mem_cons_of_mem _ hw''))
    · simp only [interrupted]
      rw [hint']
      exact hie
  · exact hg.joined_sd
  · intro hj hor
    obtain ⟨_, hie, _⟩ := hg.joined_safe hj hor
    rw [hinf] at hie
    exact absurd hie (by simp)
  · intro h1
    show s.deqHist = (s.execHist ++ [inv]) ++ _ ++ _
    simp only [inflight, interrupted]
    rw [hinf', hint']
    have hl := hsingle s.deqHist h1 rfl
    rw [List.length_set, hdecomp] at h1
    simp only [List.length_append, List.length_cons] at h1
    have hl1 : l₁ = [] := List.length_eq_zero.mp (by omega)
    have hl2 : l₂ = [] := List.length_eq_zero.mp (by omega)
    rw [hl1, hl2, hl]
    simp
  · have hc := hg.cnt
    rw [hinf, hint] at hc
    have hfc : failCount (s.execHist ++ [inv]) = failCount s.execHist + 1 := by
      simp [failCount, List.filter_append, List.filter_cons, hok]
    simp only [inflight, interrupted]
    rw [hinf', hint', hfc]
    simp only [List.length_append, List.length_cons] at hc ⊢
    omega
  · intro inv' h'
    simp only [inflight, interrupted]
    rw [hinf', hint']
    rcases hg.part inv' h' with hbm | him | hem | hcm
    · exact Or.inl hbm
    · rw [hinf] at him
      rcases List.mem_append.mp him with him | him
      · exact Or.inr (Or.inl (List.mem_append_left _ him))
      · rcases List.mem_cons.mp him with rfl | him
        · exact Or.inr (Or.inr (Or.inl (List.mem_append_right _ (List.mem_cons_self _ _))))
        · exact Or.inr (Or.inl (List.mem_append_right _ him))
    · exact Or.inr (Or.inr (Or.inl (List.mem_append_left _ hem)))
    · rw [hint] at hcm
      exact Or.inr (Or.inr (Or.inr hcm))
  · exact hg.fifo
  · exact hg.ids_lt
  · exact hg.ids_nd
  · intro hsd'
    obtain ⟨hall, hie⟩ := hg.cancel_late hsd'
    rw [hint] at hie
    constructor
    · intro w'' hw''
      rw [hset'] at hw''
      rcases List.mem_append.mp hw'' with hw'' | hw''
      · exact hall w'' (by rw [hdecomp]; exact List.mem_append_left _ hw'')
      · rcases List.mem_cons.mp hw'' with rfl | hw''
        · exact hcr
        · exact hall w'' (by rw [hdecomp]; exact List.mem_append_right _ (List.mem_cons_of_mem _ hw''))
    · simp only [interrupted]
      rw [hint']
      exact hie
  · exact hg.joined_sd
  · intro hj hor
    obtain ⟨_, hie, _⟩ := hg.joined_safe hj hor
    rw [hinf] at hie
    exact absurd hie (by simp)
  · intro h1
    show s.deqHist = (s.execHist ++ [inv]) ++ _ ++ _
    simp only [inflight, interrupted]
    rw [hinf', hint']
    have hl := hsingle s.deqHist h1 rfl
    rw [List.length_set, hdecomp] at h1
    simp only [List.length_append, List.length_cons] at h1
    have hl1 : l₁ = [] := List.length_eq_zero.mp (by omega)
    have hl2 : l₂ = [] := List.length_eq_zero.mp (by omega)
    rw [hl1, hl2, hl]
    simp

/-- The cancellation-delivery step preserves the invariant. -/
theorem ginv_cancelDeliver {s s' : Sys} {i : Nat} (hg : GInv s)
    (h : step (Action.cancelDeliver i) s = some s') : GInv s' := by
  obtain ⟨w, hw, hcr, hcase⟩ := cancelDeliver_inv h
  obtain ⟨l₁, l₂, hdecomp, hlen, hset⟩ := getElem?_decomp hw
  have hwmem : w ∈ s.workers := by
    rw [hdecomp]; exact List.mem_append_right _ (List.mem_cons_self _ _)
  rcases hcase with ⟨hst, rfl⟩ | ⟨inv, hst, rfl⟩
  · -- cancellation hits the worker suspended in the queue get
    have hinf : inflight s = l₁.filterMap wInflight ++ l₂.filterMap wInflight := by
      rw [inflight, hdecomp]
      simp [List.filterMap_append, List.filterMap_cons, wInflight, hst]
    have hint : interrupted s = l₁.filterMap wCancelled ++ l₂.filterMap wCancelled := by
      rw [interrupted, hdecomp]
      simp [List.filterMap_append, List.filterMap_cons, wCancelled, hst]
    have hset' := hset { w with st := WStatus.terminated none }
    have hinf' : (s.workers.set i { w with st := WStatus.terminated none }).filterMap wInflight
        = l₁.filterMap wInflight ++ l₂.filterMap wInflight := by
      rw [hset']
      simp [List.filterMap_append, List.filterMap_cons, wInflight]
    have hint' : (s.workers.set i { w with st := WStatus.terminated none }).filterMap wCancelled
        = l₁.filterMap wCancelled ++ l₂.filterMap wCancelled := by
      rw [hset']
      simp [List.filterMap_append, List.filterMap_cons, wCancelled]
    refine ⟨?_, ?_, ?_, ?_, ?_, ?_, ?_, ?_, ?_⟩
    · have hc := hg.cnt
      rw [hinf, hint] at hc
      simp only [inflight, interrupted]
      rw [hinf', hint']
      exact hc
    · intro inv' h'
      simp only [inflight, interrupted]
      rw [hinf', hint']
      rcases hg.part inv' h' with hbm | him | hem | hcm
      · exact Or.inl hbm
      · rw [hinf] at him
        exact Or.inr (Or.inl him)
      · exact Or.inr (Or.inr (Or.inl hem))
      · rw [hint] at hcm
        exact Or.inr (Or.inr (Or.inr hcm))
    · exact hg.fifo
    · exact hg.ids_lt
    · exact hg.ids_nd
    · intro hsd'
      have hfalse := (hg.cancel_late hsd').1 w hwmem
      rw [hcr] at hfalse
      exact absurd hfalse (by simp)
    · exact hg.joined_sd
    · intro hj hor
      obtain ⟨hbe, hie, hce⟩ := hg.joined_safe hj hor
      rw [hinf] at hie
      rw [hint] at hce
      refine ⟨hbe, ?_, ?_⟩
      · simp only [inflight]
        rw [hinf']
        exact hie
      · simp only [interrupted]
        rw [hint']
        exact hce
    · intro h1
      rw [List.length_set, hdecomp] at h1
      simp only [List.length_append, List.length_cons] at h1
      have hl1 : l₁ = [] := List.length_eq_zero.mp (by omega)
      have hl2 : l₂ = [] := List.length_eq_zero.mp (by omega)
      have hs := hg.single (by rw [hdecomp, hl1, hl2]; rfl)
      rw [hinf, hint, hl1, hl2] at hs
      simp only [List.filterMap_nil, List.append_nil, List.nil_append] at hs
      show s.deqHist = _
      simp only [inflight, interrupted]
      rw [hinf', hint', hl1, hl2]
      simp only [List.filterMap_nil, List.append_nil, List.nil_append]
      exact hs
  · -- cancellation hits the worker mid-execution
    have hinf : inflight s = l₁.filterMap wInflight ++ inv :: l₂.filterMap wInflight := by
      rw [inflight, hdecomp]
      simp [List.filterMap_append, List.filterMap_cons, wInflight, hst]
    have hint : interrupted s = l₁.filterMap wCancelled ++ l₂.filterMap wCancelled := by
      rw [interrupted, hdecomp]
      simp [List.filterMap_append, List.filterMap_cons, wCancelled, hst]
    have hset' := hset { w with st := WStatus.terminated (some inv) }
    have hinf' : (s.workers.set i { w with st := WStatus.terminated (some inv) }).filterMap wInflight
        = l₁.filterMap wInflight ++ l₂.filterMap wInflight := by
      rw [hset']
      simp [List.filterMap_append, List.filterMap_cons, wInflight]
    have hint' : (s.workers.set i { w with st := WStatus.terminated (some inv) }).filterMap wCancelled
        = l₁.filterMap wCancelled ++ inv :: l₂.filterMap wCancelled := by
      rw [hset']
      simp [List.filterMap_append, List.filterMap_cons, wCancelled]
    refine ⟨?_, ?_, ?_, ?_, ?_, ?_, ?_, ?_, ?_⟩
    · have hc := hg.cnt
      rw [hinf, hint] at hc
      simp only [inflight, interrupted]
      rw [hinf', hint']
      simp only [List.length_append, List.length_cons] at hc ⊢
      omega
    · intro inv' h'
      simp only [inflight, interrupted]
      rw [hinf', hint']
      rcases hg.part inv' h' with hbm | him | hem | hcm
      · exact Or.inl hbm
      · rw [hinf] at him
        rcases List.mem_append.mp him with him | him
        · exact Or.inr (Or.inl (List.mem_append_left _ him))
        · rcases List.mem_cons.mp him with rfl | him
          · exact Or.inr (Or.inr (Or.inr (List.mem_append_right _ (List.mem_cons_self _ _))))
          · exact Or.inr (Or.inl (List.mem_append_right _ him))
      · exact Or.inr (Or.inr (Or.inl hem))
      · rw [hint] at hcm
        rcases List.mem_append.mp hcm with hcm | hcm
        · exact Or.inr (Or.inr (Or.inr (List.mem_append_left _ hcm)))
        · exact Or.inr (Or.inr (Or.inr (List.mem_append_right _ (List.mem_cons_of_mem _ hcm))))
    · exact hg.fifo
    · exact hg.ids_lt
    · exact hg.ids_nd
    · intro hsd'
      have hfalse := (hg.cancel_late hsd').1 w hwmem
      rw [hcr] at hfalse
      exact absurd hfalse (by simp)
    · exact hg.joined_sd
    · intro hj hor
      obtain ⟨_, hie, _⟩ := hg.joined_safe hj hor
      rw [hinf] at hie
      exact absurd hie (by simp)
    · intro h1
      rw [List.length_set, hdecomp] at h1
      simp only [List.length_append, List.length_cons] at h1
      have hl1 : l₁ = [] := List.length_eq_zero.mp (by omega)
      have hl2 : l₂ = [] := List.length_eq_zero.mp (by omega)
      have hs := hg.single (by rw [hdecomp, hl1, hl2]; rfl)
      rw [hinf, hint, hl1, hl2] at hs
      simp only [List.filterMap_nil, List.append_nil, List.nil_append] at hs
      show s.deqHist = _
      simp only [inflight, interrupted]
      rw [hinf', hint', hl1, hl2]
      simp only [List.filterMap_nil, List.append_nil, List.nil_append]
      exact hs

/-- The shutdown-entry step preserves the invariant. -/
theorem ginv_sdCall {s s' : Sys} (hg : GInv s)
    (h : step Action.sdCall s = some s') : GInv s' := by
  obtain ⟨hsd, hcase⟩ := sdCall_inv h
  rcases hcase with ⟨hb, rfl⟩ | ⟨inv, rest, hb, rfl⟩
  · -- buffer empty: the join is skipped and every worker is cancelled
    have hinf' : (s.workers.map setCancel).filterMap wInflight
        = s.workers.filterMap wInflight := filterMap_wInflight_map_setCancel _
    have hint' : (s.workers.map setCancel).filterMap wCancelled
        = s.workers.filterMap wCancelled := filterMap_wCancelled_map_setCancel _
    refine ⟨?_, ?_, ?_, ?_, ?_, ?_, ?_, ?_, ?_⟩
    · have hc := hg.cnt
      simp only [inflight, interrupted] at hc ⊢
      rw [hinf', hint']
      exact hc
    · intro inv' h'
      simp only [inflight, interrupted]
      rw [hinf', hint']
      exact hg.part inv' h'
    · exact hg.fifo
    · exact hg.ids_lt
    · exact hg.ids_nd
    · intro hsd'
      rcases hsd' with h' | h' <;> simp at h'
    · intro _
      simp
    · intro hj _
      exact absurd hsd (hg.joined_sd hj)
    · intro h1
      rw [List.length_map] at h1
      have hs := hg.single h1
      simp only [inflight, interrupted] at hs ⊢
      rw [hinf', hint']
      exact hs
  · -- buffer non-empty: shutdown suspends in the join
    refine ⟨hg.cnt, hg.part, hg.fifo, hg.ids_lt, hg.ids_nd, ?_, ?_, ?_, hg.single⟩
    · intro _
      exact hg.cancel_late (Or.inl hsd)
    · intro _
      simp
    · intro _ hor
      rcases hor with h' | h' <;> simp at h'

/-- The join-return step preserves the invariant, and in particular
establishes the safe-shutdown facts on that path: a zero unfinished
counter empties the buffer, the in-flight set and the interrupted set. -/
theorem ginv_sdJoinDone {s s' : Sys} (hg : GInv s)
    (h : step Action.sdJoinDone s = some s') : GInv s' := by
  obtain ⟨hsd, hun, rfl⟩ := sdJoinDone_inv h
  have hinf' : (s.workers.map setCancel).filterMap wInflight
      = s.workers.filterMap wInflight := filterMap_wInflight_map_setCancel _
  have hint' : (s.workers.map setCancel).filterMap wCancelled
      = s.workers.filterMap wCancelled := filterMap_wCancelled_map_setCancel _
  have hc := hg.cnt
  rw [hun] at hc
  have hbe : s.buffer = [] := List.length_eq_zero.mp (by omega)
  have hie : inflight s = [] := List.length_eq_zero.mp (by omega)
  have hce : interrupted s = [] := List.length_eq_zero.mp (by omega)
  refine ⟨?_, ?_, ?_, ?_, ?_, ?_, ?_, ?_, ?_⟩
  · have hc' := hg.cnt
    simp only [inflight, interrupted] at hc' ⊢
    rw [hinf', hint']
    exact hc'
  · intro inv' h'
    simp only [inflight, interrupted]
    rw [hinf', hint']
    exact hg.part inv' h'
  · exact hg.fifo
  · exact hg.ids_lt
  · exact hg.ids_nd
  · intro hsd'
    rcases hsd' with h' | h' <;> simp at h'
  · intro _
    simp
  · intro _ _
    refine ⟨hbe, ?_, ?_⟩
    · simp only [inflight]
      rw [hinf']
      exact hie
    · simp only [interrupted]
      rw [hint']
      exact hce
  · intro h1
    rw [List.length_map] at h1
    have hs := hg.single h1
    simp only [inflight, interrupted] at hs ⊢
    rw [hinf', hint']
    exact hs

/-- The gather-return step preserves the invariant. -/
theorem ginv_sdGatherDone {s s' : Sys} (hg : GInv s)
    (h : step Action.sdGatherDone s = some s') : GInv s' := by
  obtain ⟨hsd, _, rfl⟩ := sdGatherDone_inv h
  refine ⟨hg.cnt, hg.part, hg.fifo, hg.ids_lt, hg.ids_nd, ?_, ?_, ?_, hg.single⟩
  · intro hsd'
    rcases hsd' with h' | h' <;> simp at h'
  · intro _
    simp
  · intro hj _
    exact hg.joined_safe hj (Or.inl hsd)

/-- Every scheduler step preserves the invariant. -/
theorem ginv_step {s s' : Sys} {a : Action} (hg : GInv s)
    (h : step a s = some s') : GInv s' := by
  cases a with
  | enqueue name ok => exact ginv_enqueue hg h
  | dequeue i => exact ginv_dequeue hg h
  | finish i => exact ginv_finish hg h
  | cancelDeliver i => exact ginv_cancelDeliver hg h
  | sdCall => exact ginv_sdCall hg h
  | sdJoinDone => exact ginv_sdJoinDone hg h
  | sdGatherDone => exact ginv_sdGatherDone hg h

/-- The invariant holds right after startup. -/
theorem ginv_init (n : Nat) : GInv (initSys n) := by
  have hinf : inflight (initSys n) = [] :=
    @filterMap_replicate_none Worker TInv wInflight ⟨WStatus.atGet, false⟩ rfl n
  have hint : interrupted (initSys n) = [] :=
    @filterMap_replicate_none Worker TInv wCancelled ⟨WStatus.atGet, false⟩ rfl n
  refine ⟨?_, ?_, ?_, ?_, ?_, ?_, ?_, ?_, ?_⟩
  · rw [show (initSys n).unfinished = 0 from rfl, show (initSys n).buffer = [] from rfl,
       show (initSys n).execHist = [] from rfl, hinf, hint]
    rfl
  · intro inv h'
    exact absurd h' (by simp [initSys])
  · rfl
  · intro inv h'
    exact absurd h' (by simp [initSys])
  · simp [initSys]
  · intro _
    refine ⟨?_, hint⟩
    intro w hw
    have := List.eq_of_mem_replicate hw
    subst this
    rfl
  · intro hj
    exact absurd hj (by simp [initSys])
  · intro hj _
    exact absurd hj (by simp [initSys])
  · intro _
    rw [show (initSys n).deqHist = [] from rfl, show (initSys n).execHist = [] from rfl,
       hinf, hint]
    rfl

/-- Running any action sequence preserves the invariant. -/
theorem ginv_run {acts : List Action} {s s' : Sys} (hg : GInv s)
    (h : run acts s = some s') : GInv s' := by
  induction acts generalizing s with
  | nil =>
    simp only [run, Option.some_inj] at h
    subst h
    exact hg
  | cons a rest ih =>
    simp only [run] at h
    cases hstep : step a s with
    | none => rw [hstep] at h; simp at h
    | some s₁ =>
      rw [hstep] at h
      exact ih (ginv_step hg hstep) h

/-- Indexing after an update at the same position returns the update. -/
theorem getElem?_after_set {α : Type} {l : List α} {i : Nat} {w : α}
    (h : l[i]? = some w) (w' : α) : (l.set i w')[i]? = some w' := by
  obtain ⟨l₁, l₂, _, hlen, hset⟩ := getElem?_decomp h
  rw [hset w', ← hlen]
  rw [List.getElem?_append_right (Nat.le_refl _)]
  simp

/-- Whatever the outcome of the dequeued invocation, the finish step
puts the worker back at the queue get and appends the invocation to the
execution history; only the unfinished counter and the task_done count
depend on the outcome. -/
theorem finish_effect {s : Sys} {i : Nat} {w : Worker} {inv : TInv}
    (hw : s.workers[i]? = some w) (hst : w.st = WStatus.atExec inv)
    (hcr : w.cancelReq = false) :
    ∃ u d, step (Action.finish i) s
      = some { s with workers := s.workers.set i { w with st := WStatus.atGet },
                      execHist := s.execHist ++ [inv],
                      unfinished := u, doneCalls := d } := by
  by_cases hok : inv.ok
  · exact ⟨s.unfinished - 1, s.doneCalls + 1, by simp [step, hw, hst, hcr, hok]⟩
  · exact ⟨s.unfinished, s.doneCalls, by simp [step, hw, hst, hcr, hok]⟩

/-- Unfolds one enabled step at the head of a run. -/
theorem run_cons_of_step {a : Action} {acts : List Action} {s s₁ : Sys}
    (h : step a s = some s₁) : run (a :: acts) s = run acts s₁ := by
  simp only [run, h]
  rfl

/-- No scheduler step changes the number of workers in the pool. -/
theorem step_workers_length {a : Action} {s s' : Sys}
    (h : step a s = some s') : s'.workers.length = s.workers.length := by
  cases a with
  | enqueue name ok =>
    obtain ⟨_, rfl⟩ := enqueue_inv h
    rfl
  | dequeue i =>
    obtain ⟨w, inv, rest, _, _, _, _, rfl⟩ := dequeue_inv h
    simp [List.length_set]
  | finish i =>
    obtain ⟨w, inv, _, _, _, hcase⟩ := finish_inv h
    rcases hcase with ⟨_, rfl⟩ | ⟨_, rfl⟩ <;> simp [List.length_set]
  | cancelDeliver i =>
    obtain ⟨w, _, _, hcase⟩ := cancelDeliver_inv h
    rcases hcase with ⟨_, rfl⟩ | ⟨_, _, rfl⟩ <;> simp [List.length_set]
  | sdCall =>
    obtain ⟨_, hcase⟩ := sdCall_inv h
    rcases hcase with ⟨_, rfl⟩ | ⟨_, _, _, rfl⟩ <;> simp [List.length_map]
  | sdJoinDone =>
    obtain ⟨_, _, rfl⟩ := sdJoinDone_inv h
    simp [List.length_map]
  | sdGatherDone =>
    obtain ⟨_, _, rfl⟩ := sdGatherDone_inv h
    rfl

/-- Running a concatenation of schedules runs them in sequence. -/
theorem run_append (l₁ l₂ : List Action) (s : Sys) :
    run (l₁ ++ l₂) s = (run l₁ s).bind (run l₂) := by
  induction l₁ generalizing s with
  | nil => rfl
  | cons a t ih =>
    simp only [List.cons_append, run]
    cases step a s with
    | none => rfl
    | some s₁ => exact ih s₁

/-- From a state whose worker i idles at the queue get with no pending
cancellation and whose buffer starts with inv, dequeuing and finishing
execute one invocation — whatever its outcome — and return the worker to
the queue get. -/
theorem dequeue_finish_effect (s : Sys) (i : Nat) (inv : TInv)
    (rest : List TInv)
    (hw : s.workers[i]? = some ⟨WStatus.atGet, false⟩)
    (hb : s.buffer = inv :: rest) :
    ∃ s', run [Action.dequeue i, Action.finish i] s = some s' ∧
      s'.buffer = rest ∧
      s'.deqHist = s.deqHist ++ [inv] ∧
      s'.execHist = s.execHist ++ [inv] ∧
      s'.enqHist = s.enqHist ∧
      s'.workers[i]? = some ⟨WStatus.atGet, false⟩ := by
  have h1 : step (Action.dequeue i) s
      = some { s with buffer := rest,
                      workers := s.workers.set i ⟨WStatus.atExec inv, false⟩,
                      deqHist := s.deqHist ++ [inv] } := by
    simp [step, hw, hb]
  have hg1 := getElem?_after_set hw ⟨WStatus.atExec inv, false⟩
  obtain ⟨u, d, h2⟩ :=
    @finish_effect
      { s with buffer := rest,
               workers := s.workers.set i ⟨WStatus.atExec inv, false⟩,
               deqHist := s.deqHist ++ [inv] }
      i ⟨WStatus.atExec inv, false⟩ inv hg1 rfl rfl
  refine ⟨{ s with
      buffer := rest,
      workers := (s.workers.set i ⟨WStatus.atExec inv, false⟩).set i
        ⟨WStatus.atGet, false⟩,
      deqHist := s.deqHist ++ [inv],
      execHist := s.execHist ++ [inv],
      unfinished := u, doneCalls := d }, ?_, rfl, rfl, rfl, rfl, ?_⟩
  · rw [run_cons_of_step h1, run_cons_of_step h2]
    rfl
  · exact getElem?_after_set hg1 ⟨WStatus.atGet, false⟩

/-- No run changes the number of workers in the pool. -/
theorem run_workers_length {acts : List Action} {s s' : Sys}
    (h : run acts s = some s') : s'.workers.length = s.workers.length := by
  induction acts generalizing s with
  | nil =>
    simp only [run, Option.some_inj] at h
    subst h
    rfl
  | cons a rest ih =>
    simp only [run] at h
    cases hstep : step a s with
    | none => rw [hstep] at h; simp at h
    | some s₁ =>
      rw [hstep] at h
      rw [ih h, step_workers_length hstep]

/-!
The claims.
-/

/-- C6: for every task name that is not currently in the registry,
enqueue_task raises the unknown-task error and leaves the queue
unchanged (nothing is appended); for every registered name it appends
exactly one invocation to the tail. -/
theorem c6_enqueue_unknown_rejected (st : WState) (n : String)
    (args : List Value) (kwargs : List (String × Value)) :
    (st.registered_tasks n = none →
      enqueueTask st n args kwargs = (st, some (Exc.unknownTask n))) ∧
    (∀ h, st.registered_tasks n = some h →
      enqueueTask st n args kwargs =
        ({ st with task_queue := st.task_queue ++ [⟨n, args, kwargs⟩] },
         none)) := by
  constructor
  · intro hn
    simp [enqueueTask, hn]
  · intro h hn
    simp [enqueueTask, hn]

/-- Witness for c6_enqueue_unknown_rejected at concrete inputs: a
registered name appends one invocation, an unregistered name errors and
returns the module state untouched. -/
theorem c6_enqueue_unknown_rejected_witness :
    stDemo.registered_tasks "send_notification" = some hDemo ∧
    stEmpty.registered_tasks "boom" = none ∧
    enqueueTask stDemo "send_notification" [] [] =
      ({ stDemo with
          task_queue := stDemo.task_queue ++ [⟨"send_notification", [], []⟩] },
       none) ∧
    enqueueTask stEmpty "boom" [] [] =
      (stEmpty, some (Exc.unknownTask "boom")) :=
  ⟨rfl, rfl,
   (c6_enqueue_unknown_rejected stDemo "send_notification" [] []).2 hDemo rfl,
   (c6_enqueue_unknown_rejected stEmpty "boom" [] []).1 rfl⟩

/-- C7: execute_task raises the unknown-task error if and only if the
given name is absent from the registry; for a registered handler, any
exception the handler raises propagates unwrapped to the caller of
execute_task — the executor does not catch, retry, or suppress it, it
only adds a log entry recording the failure with the task name and the
exception detail. -/
theorem c7_execute_propagation (st : WState) (n : String)
    (args : List Value) (kwargs : List (String × Value)) :
    ((executeTask st n args kwargs).1 = Except.error (Exc.unknownTask n) ↔
      st.registered_tasks n = none) ∧
    (∀ h, st.registered_tasks n = some h →
      (∀ e, h.fn args kwargs = Except.error e →
        executeTask st n args kwargs =
          (Except.error (Exc.fromHandler e), [LogEntry.taskFailed n e])) ∧
      (∀ v, h.fn args kwargs = Except.ok v →
        executeTask st n args kwargs = (Except.ok v, []))) := by
  constructor
  · constructor
    · intro he
      cases hn : st.registered_tasks n with
      | none => rfl
      | some h =>
        exfalso
        simp only [executeTask, hn] at he
        cases hf : h.fn args kwargs with
        | ok v => rw [hf] at he; simp at he
        | error e => rw [hf] at he; simp at he
    · intro hn
      simp [executeTask, hn]
  · intro h hn
    constructor
    · intro e hf
      simp [executeTask, hn, hf]
    · intro v hf
      simp [executeTask, hn, hf]

/-- Witness for c7_execute_propagation at concrete inputs: the raising
handler's own exception comes back unwrapped with one failure log
entry. -/
theorem c7_execute_propagation_witness :
    stBoom.registered_tasks "boom" = some hBoom ∧
    hBoom.fn [] [] = Except.error "boom" ∧
    executeTask stBoom "boom" [] [] =
      (Except.error (Exc.fromHandler "boom"), [LogEntry.taskFailed "boom" "boom"]) :=
  ⟨rfl, rfl,
   ((c7_execute_propagation stBoom "boom" [] []).2 hBoom rfl).1 "boom" rfl⟩

/-- C10: for every name n and handler h, applying the registration
decorator register_task(n) to h changes only the registry entry for n:
every other registered name still maps to the same handler as before,
the task queue is unchanged, and the decorator returns h itself
unchanged. -/
theorem c10_register_frame (n m : String) (h : Handler) (st : WState)
    (hne : m ≠ n) :
    (registerTask n h st).1 = h ∧
    (registerTask n h st).2.registered_tasks n = some h ∧
    (registerTask n h st).2.registered_tasks m = st.registered_tasks m ∧
    (registerTask n h st).2.task_queue = st.task_queue := by
  refine ⟨rfl, ?_, ?_, rfl⟩
  · simp [registerTask]
  · simp [registerTask, hne]

/-- Witness for c10_register_frame at concrete inputs. -/
theorem c10_register_frame_witness :
    "generate_report" ≠ "send_notification" ∧
    ((registerTask "send_notification" hDemo stEmpty).1 = hDemo ∧
     (registerTask "send_notification" hDemo stEmpty).2.registered_tasks
        "send_notification" = some hDemo ∧
     (registerTask "send_notification" hDemo stEmpty).2.registered_tasks
        "generate_report" = stEmpty.registered_tasks "generate_report" ∧
     (registerTask "send_notification" hDemo stEmpty).2.task_queue
        = stEmpty.task_queue) :=
  ⟨by decide,
   c10_register_frame "send_notification" "generate_report" hDemo stEmpty
     (by decide)⟩

/-- C9 counterexample refuting the claim as stated: two environments
that differ only in NUM_WORKERS (5 versus 7) give the same worker pool
of size 3 at API host startup, so the number of worker loops launched by
lifespan is a hard-coded constant, not read from environment
configuration; only the standalone entry point of app/worker.py reads
NUM_WORKERS. -/
theorem c9_count_not_from_env_counterexample :
    envNum5 "NUM_WORKERS" = some "5" ∧
    envNum7 "NUM_WORKERS" = some "7" ∧
    lifespanWorkers envNum5 = lifespanWorkers envNum7 ∧
    (lifespanWorkers envNum5).length = 3 ∧
    standaloneNumWorkers envNum5 = some 5 := by
  refine ⟨rfl, rfl, rfl, rfl, by decide⟩

/-- C9 amended: at API host-process startup, whether the worker
subsystem is enabled is read from the environment variable
ENABLE_WORKERS (default "true", lower-cased before comparison with
"true"), while the number of worker loops is the fixed constant 3 passed
to start_worker; the standalone worker entry point instead reads its
count from the environment variable NUM_WORKERS (default "3") and has no
enable flag. -/
theorem c9_env_config_amended (env : Env) :
    (readEnableWorkers env = true →
      lifespanWorkers env = startWorkerHandles 3 ∧
      (lifespanWorkers env).length = 3) ∧
    (readEnableWorkers env = false → lifespanWorkers env = []) ∧
    (∀ v, env "NUM_WORKERS" = some v → standaloneNumWorkers env = strToNat v) ∧
    (env "NUM_WORKERS" = none → standaloneNumWorkers env = strToNat "3") := by
  refine ⟨?_, ?_, ?_, ?_⟩
  · intro he
    constructor
    · simp [lifespanWorkers, he]
    · simp [lifespanWorkers, he, startWorkerHandles]
  · intro he
    simp [lifespanWorkers, he]
  · intro v hv
    simp [standaloneNumWorkers, hv]
  · intro hv
    simp [standaloneNumWorkers, hv]

/-- Witness for c9_env_config_amended at a concrete environment. -/
theorem c9_env_config_amended_witness :
    readEnableWorkers envNum5 = true ∧
    envNum5 "NUM_WORKERS" = some "5" ∧
    (lifespanWorkers envNum5 = startWorkerHandles 3 ∧
      (lifespanWorkers envNum5).length = 3) ∧
    standaloneNumWorkers envNum5 = strToNat "5" :=
  ⟨by decide, rfl,
   (c9_env_config_amended envNum5).1 (by decide),
   (c9_env_config_amended envNum5).2.2.1 "5" rfl⟩

/-- C1 counterexample refuting the claim as stated: a legal schedule in
which one invocation is enqueued and dequeued, shutdown_worker is then
called while the queue buffer is empty (the invocation being
mid-execution), the skip-join branch of shutdown_worker cancels the
worker immediately, the gather returns, and shutdown completes although
the invocation enqueued before the call was never executed. -/
theorem c1_shutdown_skips_join_counterexample :
    run c1CounterTrace (initSys 1) = some c1CounterState ∧
    c1CounterState.sd = SdStatus.done ∧
    c1CounterState.enqHist = [⟨0, "generate_report", true⟩] ∧
    c1CounterState.execHist = [] ∧
    c1CounterState.doneCalls = 0 ∧
    interrupted c1CounterState = [⟨0, "generate_report", true⟩] :=
  ⟨rfl, rfl, rfl, rfl, rfl, rfl⟩

/-- C1 amended: provided shutdown_worker found a non-empty queue buffer
at the moment of the call — and therefore awaited queue.join() before
signalling cancellation — it does not return until every invocation
enqueued before the shutdown call has been executed: in every reachable
state in which the shutdown coroutine has returned after awaiting the
join, every enqueued invocation appears in the execution history.  When
the buffer is empty at the call the join is skipped and a mid-execution
invocation can be lost, as the counterexample shows. -/
theorem c1_shutdown_drains_when_join_awaited (n : Nat) (acts : List Action)
    (s : Sys) (h : run acts (initSys n) = some s) (hj : s.joined = true)
    (hd : s.sd = SdStatus.done) :
    ∀ inv ∈ s.enqHist, inv ∈ s.execHist := by
  have hg := ginv_run (ginv_init n) h
  obtain ⟨hbe, hie, hce⟩ := hg.joined_safe hj (Or.inr hd)
  intro inv hmem
  rcases hg.part inv hmem with hbm | him | hem | hcm
  · rw [hbe] at hbm
    exact absurd hbm (by simp)
  · rw [hie] at him
    exact absurd him (by simp)
  · exact hem
  · rw [hce] at hcm
    exact absurd hcm (by simp)

/-- Witness for c1_shutdown_drains_when_join_awaited on a concrete
drain-path schedule. -/
theorem c1_shutdown_drains_when_join_awaited_witness :
    run c1WitnessTrace (initSys 1) = some c1WitnessState ∧
    c1WitnessState.joined = true ∧
    c1WitnessState.sd = SdStatus.done ∧
    (⟨0, "generate_report", true⟩ : TInv) ∈ c1WitnessState.enqHist ∧
    (⟨0, "generate_report", true⟩ : TInv) ∈ c1WitnessState.execHist :=
  ⟨rfl, rfl, rfl, by decide,
   c1_shutdown_drains_when_join_awaited 1 c1WitnessTrace c1WitnessState rfl rfl
     rfl ⟨0, "generate_report", true⟩ (by decide)⟩

/-- C2 counterexample refuting the claim as stated: a legal schedule in
which shutdown_worker is called while the single dequeued invocation is
still executing and the buffer is empty; the join is skipped, so the
cancellation is delivered inside the await of execute_task, interrupting
an active execution rather than an idle wait. -/
theorem c2_cancel_during_exec_counterexample :
    run c2CounterTrace (initSys 1) = some c2CounterState ∧
    interrupted c2CounterState = [⟨0, "send_notification", true⟩] ∧
    c2CounterState.execHist = [] :=
  ⟨rfl, rfl, rfl⟩

/-- C2 amended: on every schedule in which shutdown_worker found a
non-empty buffer at the moment of the call and therefore awaited
queue.join() before signalling cancellation, cancellation never
interrupts an execution: no reachable state of such a schedule has a
worker that was cancelled while executing, so cancellation is only ever
delivered while a worker waits for the next item.  When the call finds
an empty buffer the join is skipped and cancellation can interrupt a
mid-execution task, as the counterexample shows. -/
theorem c2_no_midexec_cancel_when_joined (n : Nat) (acts : List Action)
    (s : Sys) (h : run acts (initSys n) = some s) (hj : s.joined = true) :
    interrupted s = [] := by
  have hg := ginv_run (ginv_init n) h
  cases hsd : s.sd with
  | idle => exact (hg.cancel_late (Or.inl hsd)).2
  | joining => exact (hg.cancel_late (Or.inr hsd)).2
  | gathering => exact (hg.joined_safe hj (Or.inl hsd)).2.2
  | done => exact (hg.joined_safe hj (Or.inr hsd)).2.2

/-- Witness for c2_no_midexec_cancel_when_joined on a concrete
two-worker drain-path schedule. -/
theorem c2_no_midexec_cancel_when_joined_witness :
    run c2WitnessTrace (initSys 2) = some c2WitnessState ∧
    c2WitnessState.joined = true ∧
    c2WitnessState.sd = SdStatus.done ∧
    interrupted c2WitnessState = [] :=
  ⟨rfl, rfl, rfl,
   c2_no_midexec_cancel_when_joined 2 c2WitnessTrace c2WitnessState rfl rfl⟩

/-- C3: the worker loop of worker_process calls task_done() only on the
success path — when execute_task raises, control jumps to the
except-Exception arm, which logs and continues the loop, and the skipped
task_done() call is never made.  On the failing input below the single
dequeued invocation finishes execution by raising: the execution history
records it, no task_done call is made, and the unfinished counter stays
at 1 instead of returning to 0; consequently on the second schedule a
later queue.join() (the sdJoinDone step) can never complete even though
the buffer is empty and every dequeued item has finished. -/
theorem c3_taskdone_skipped_on_failure :
    (run c3FailTrace (initSys 1) = some c3FailState ∧
      c3FailState.execHist = [⟨0, "boom", false⟩] ∧
      c3FailState.doneCalls = 0 ∧
      c3FailState.unfinished = 1) ∧
    (run c3JoinTrace (initSys 1) = some c3JoinState ∧
      c3JoinState.sd = SdStatus.joining ∧
      c3JoinState.buffer = [] ∧
      inflight c3JoinState = [] ∧
      c3JoinState.execHist.length = 2 ∧
      c3JoinState.unfinished = 1 ∧
      step Action.sdJoinDone c3JoinState = none) :=
  ⟨⟨rfl, rfl, rfl, rfl⟩, ⟨rfl, rfl, rfl, rfl, rfl, rfl, rfl⟩⟩

/-- C4: for every queued sequence of invocations, a handler that raises
an exception does not prevent subsequently queued handlers from running:
the worker loop catches any non-cancellation exception from execute,
logs it, and continues dequeuing, so an individual task failure never
terminates the worker loop.  Formally: from any state in which worker i
sits at the queue get with no cancellation requested and the buffer
holds inv₁ ahead of inv₂ — with no constraint on inv₁.ok, so in
particular when inv₁ raises — the scheduler runs both to completion in
order and the worker ends back at the queue get, not terminated. -/
theorem c4_failure_isolation (s : Sys) (i : Nat) (w : Worker)
    (inv₁ inv₂ : TInv) (rest : List TInv)
    (hw : s.workers[i]? = some w) (hst : w.st = WStatus.atGet)
    (hcr : w.cancelReq = false) (hb : s.buffer = inv₁ :: inv₂ :: rest) :
    ∃ s', run [Action.dequeue i, Action.finish i, Action.dequeue i,
               Action.finish i] s = some s' ∧
      s'.execHist = s.execHist ++ [inv₁, inv₂] ∧
      ∃ w', s'.workers[i]? = some w' ∧ w'.st = WStatus.atGet ∧
        w'.cancelReq = false := by
  have hwe : w = ⟨WStatus.atGet, false⟩ := by
    cases w
    simp_all
  rw [hwe] at hw
  obtain ⟨s₁, hrun₁, hb₁, _, he₁, _, hw₁⟩ :=
    dequeue_finish_effect s i inv₁ (inv₂ :: rest) hw hb
  obtain ⟨s₂, hrun₂, _, _, he₂, _, hw₂⟩ :=
    dequeue_finish_effect s₁ i inv₂ rest hw₁ hb₁
  refine ⟨s₂, ?_, ?_, ⟨WStatus.atGet, false⟩, hw₂, rfl, rfl⟩
  · have happ := run_append [Action.dequeue i, Action.finish i]
      [Action.dequeue i, Action.finish i] s
    rw [show ([Action.dequeue i, Action.finish i] ++
        [Action.dequeue i, Action.finish i])
        = [Action.dequeue i, Action.finish i, Action.dequeue i,
           Action.finish i] from rfl] at happ
    rw [happ, hrun₁]
    exact hrun₂
  · rw [he₂, he₁]
    simp

/-- Witness for c4_failure_isolation: from a one-worker pool whose
buffer holds a raising invocation ahead of a succeeding one, both run in
order and the worker survives. -/
theorem c4_failure_isolation_witness :
    c4StartState.workers[0]? = some ⟨WStatus.atGet, false⟩ ∧
    invBoom.ok = false ∧
    c4StartState.buffer = invBoom :: invFine :: [] ∧
    (∃ s', run [Action.dequeue 0, Action.finish 0, Action.dequeue 0,
                Action.finish 0] c4StartState = some s' ∧
      s'.execHist = c4StartState.execHist ++ [invBoom, invFine] ∧
      ∃ w', s'.workers[0]? = some w' ∧ w'.st = WStatus.atGet ∧
        w'.cancelReq = false) :=
  ⟨rfl, rfl, rfl,
   c4_failure_isolation c4StartState 0 ⟨WStatus.atGet, false⟩ invBoom invFine []
     rfl rfl rfl rfl⟩

/-- C5: for every invocation placed in the task queue and any number of
concurrently running worker loops, the invocation is delivered to
exactly one worker: no item is ever dequeued by two workers.  Formally:
in every reachable state the dequeue history repeats no invocation
identifier, and it is an initial segment of the enqueue history. -/
theorem c5_at_most_once_delivery (n : Nat) (acts : List Action) (s : Sys)
    (h : run acts (initSys n) = some s) :
    (s.deqHist.map TInv.id).Nodup ∧ ∃ t, s.deqHist ++ t = s.enqHist := by
  have hg := ginv_run (ginv_init n) h
  constructor
  · have hnd := hg.ids_nd
    rw [hg.fifo, List.map_append] at hnd
    exact List.Nodup.of_append_left hnd
  · exact ⟨s.buffer, hg.fifo.symm⟩

/-- Witness for c5_at_most_once_delivery on a concrete two-worker
schedule in which each worker takes one of the two queued
invocations. -/
theorem c5_at_most_once_delivery_witness :
    run c5WitnessTrace (initSys 2) = some c5WitnessState ∧
    c5WitnessState.deqHist.length = 2 ∧
    ((c5WitnessState.deqHist.map TInv.id).Nodup ∧
      ∃ t, c5WitnessState.deqHist ++ t = c5WitnessState.enqHist) :=
  ⟨rfl, rfl, c5_at_most_once_delivery 2 c5WitnessTrace c5WitnessState rfl⟩

/-- C8: for any sequence of invocations enqueued while exactly one
worker loop is active, the handlers are executed in exactly the enqueue
order (strict FIFO at concurrency 1): in every state reachable from a
one-worker pool the history of completed executions is an initial
segment, in order, of the enqueue history. -/
theorem c8_fifo_single_worker (acts : List Action) (s : Sys)
    (h : run acts (initSys 1) = some s) :
    ∃ t, s.execHist ++ t = s.enqHist := by
  have hg := ginv_run (ginv_init 1) h
  have hlen : s.workers.length = 1 := by
    rw [run_workers_length h]
    rfl
  have hs := hg.single hlen
  refine ⟨interrupted s ++ inflight s ++ s.buffer, ?_⟩
  rw [hg.fifo, hs]
  simp [List.append_assoc]

/-- Witness for c8_fifo_single_worker on a concrete schedule of three
invocations (the second of which raises) through one worker. -/
theorem c8_fifo_single_worker_witness :
    run c8WitnessTrace (initSys 1) = some c8WitnessState ∧
    c8WitnessState.execHist =
      [⟨0, "one", true⟩, ⟨1, "two", false⟩, ⟨2, "three", true⟩] ∧
    c8WitnessState.enqHist =
      [⟨0, "one", true⟩, ⟨1, "two", false⟩, ⟨2, "three", true⟩] ∧
    ∃ t, c8WitnessState.execHist ++ t = c8WitnessState.enqHist :=
  ⟨rfl, rfl, rfl, c8_fifo_single_worker c8WitnessTrace c8WitnessState rfl⟩

end ControlEquipos
